import Mathlib

/-!
# Verification of `rand`'s low-level index sampling (`src/seq/mod.rs`)

This file embeds the two functions of the module in Lean:

* `gen_index` — samples a number uniformly below `ubound`, using the
  source's 32-bit range sampling whenever `ubound ≤ u32::MAX` and the
  64-bit one otherwise (the width decision depends only on the value of
  the bound, for cross-architecture reproducibility);
* `index.sample_array` — Floyd's algorithm: samples `N` distinct indices
  from `0..len`, returning `None` iff `N > len`.

The random source is modelled as a structure holding the two range-sampling
operations the code may invoke (`gen_range` at `u32` and at `u64` width),
each a function of the call number and the requested bound.  The embedding
is instrumented: it also returns the trace of requests (width and bound)
made to the source, so that claims about which operations are invoked and
how many draws are consumed can be stated.  A `gen_range` call on an empty
range panics in the source, which the embedding models as `none`.
-/

namespace Rand

/-- `u32::MAX` as a natural number. -/
def u32Max : Nat := 4294967295

/-- The integer width a draw is performed at. -/
inductive Width
  | w32
  | w64
deriving DecidableEq, Repr

/-- One request made to the random source: the width of the range-sampling
operation invoked and the exclusive upper bound passed to it. -/
structure Req where
  width : Width
  bound : Nat
deriving DecidableEq, Repr

/-- The random-bit source: for each call number and bound, the value its
32-bit (resp. 64-bit) range-sampling operation would return. -/
structure Src where
  genRange32 : Nat → Nat → Nat
  genRange64 : Nat → Nat → Nat

/-- The source contract: a range-sampling operation over a nonempty range
`[0, b)` returns a value in that range. -/
def SrcOk (rng : Src) : Prop :=
  ∀ i b, 0 < b → rng.genRange32 i b < b ∧ rng.genRange64 i b < b

/-- The width `gen_index` selects for a given bound: a function of the
bound's value only. -/
def widthOf (ubound : Nat) : Width :=
  if ubound ≤ u32Max then Width.w32 else Width.w64

/-- Embedding of `gen_index` (`src/seq/mod.rs:52-62`), instrumented with the
request it makes.  `rng.gen_range(0..0)` panics in the source (empty range),
modelled as `none`; otherwise the 32-bit operation is used iff
`ubound ≤ u32::MAX`, and the result is returned together with the request. -/
def gen_index (rng : Src) (i ubound : Nat) : Option (Nat × Req) :=
  if ubound = 0 then none
  else if ubound ≤ u32Max then some (rng.genRange32 i ubound, ⟨Width.w32, ubound⟩)
  else some (rng.genRange64 i ubound, ⟨Width.w64, ubound⟩)

/-- The value a non-panicking `gen_index` call returns (the draw for call
number `i` with bound `b`, taken from whichever operation `widthOf b`
selects). -/
def drawVal (rng : Src) (i b : Nat) : Nat :=
  if b ≤ u32Max then rng.genRange32 i b else rng.genRange64 i b

/-- Embedding of `indices[0..i].iter().position(|&x| x == t)`: index of the
first occurrence of `t`, if any. -/
def posOf (t : Nat) : List Nat → Option Nat
  | [] => none
  | x :: xs => if x = t then some 0 else (posOf t xs).map (· + 1)

/-- One iteration of Floyd's loop body (`src/seq/mod.rs:89-96`): given the
filled slots `indices`, the candidate `j` and the draw `t`, overwrite the
first slot holding `t` (if any) with `j`, then store `t` in the next slot. -/
def floydStep (indices : List Nat) (j t : Nat) : List Nat :=
  match posOf t indices with
  | some pos => indices.set pos j ++ [t]
  | none => indices ++ [t]

/-- The Floyd loop of `sample_array`, instrumented: iterate over the
remaining candidates `js` (the enumeration index is `i`), drawing via
`gen_index` with bound `j + 1`, and record the requests made. -/
def floydGo (rng : Src) : List Nat → Nat → List Nat → Option (List Nat) × List Req
  | [], _, indices => (some indices, [])
  | j :: js, i, indices =>
    match gen_index rng i (j + 1) with
    | none => (none, [])
    | some (t, r) =>
      let rest := floydGo rng js (i + 1) (floydStep indices j t)
      (rest.1, r :: rest.2)

/-- Embedding of `index::sample_array` (`src/seq/mod.rs:80-98`),
instrumented with the trace of requests made to the source.  Returns
`(none, [])` when `N > len`; otherwise runs Floyd's algorithm over the
candidates `len - N, …, len - 1`. -/
def sampleT (rng : Src) (N len : Nat) : Option (List Nat) × List Req :=
  if N > len then (none, [])
  else floydGo rng (List.range' (len - N) N) 0 []

/-- The result of `index::sample_array`: the sampled indices (or `none`). -/
def sample_array (rng : Src) (N len : Nat) : Option (List Nat) :=
  (sampleT rng N len).1

/-- The trace of requests a `sample_array` call makes to the source. -/
def sampleReqs (rng : Src) (N len : Nat) : List Req :=
  (sampleT rng N len).2

/-- Floyd's algorithm as a pure function of the draw sequence: fold
`floydStep` over the candidates and the corresponding draws. -/
def floydFold : List Nat → List Nat → List Nat → List Nat
  | j :: js, t :: ts, indices => floydFold js ts (floydStep indices j t)
  | _, _, indices => indices

/-- The draw values a run of the Floyd loop consumes: for the candidate at
enumeration index `i`, the value of the `gen_index` call with bound `j+1`. -/
def drawsOf (rng : Src) : List Nat → Nat → List Nat
  | [], _ => []
  | j :: js, i => drawVal rng i (j + 1) :: drawsOf rng js (i + 1)

/-- The function computed by `sample_array` from the draw sequence
`(t_(len-N), …, t_(len-1))` to the output array. -/
def floydOut (len N : Nat) (ts : List Nat) : List Nat :=
  floydFold (List.range' (len - N) N) ts []

/-- The filled prefix of the output after the first `i` iterations of the
Floyd loop of `sample_array rng N len`. -/
def floydStateAt (rng : Src) (len N i : Nat) : List Nat :=
  floydFold (List.range' (len - N) i) (drawsOf rng (List.range' (len - N) i) 0) []

/-- Inverse of one Floyd step at candidate `j`: recover the previous filled
slots and the draw from the new filled slots. -/
def floydStepInv (j : Nat) (l : List Nat) : List Nat × Nat :=
  match posOf j l.dropLast with
  | some q => (l.dropLast.set q (l.getLastD 0), l.getLastD 0)
  | none => (l.dropLast, l.getLastD 0)

/-- The admissible draw sequences for candidates `j, j+1, …, j+k-1`: each
`t_i` ranges over `[0, j+i]`. -/
def drawTuples : Nat → Nat → Finset (List Nat)
  | _, 0 => {([] : List Nat)}
  | j, k + 1 =>
    (Finset.range (j + 1)).biUnion fun t => (drawTuples (j + 1) k).image fun ts => t :: ts

/-- A fixed concrete source used to instantiate theorems: every draw is 0. -/
def srcZero : Src where
  genRange32 := fun _ _ => 0
  genRange64 := fun _ _ => 0

/-- The concrete source of the spec's hand-traced scenario: successive draws
`1, 1, 2`. -/
def srcScenario : Src where
  genRange32 := fun i _ => [1, 1, 2].getD i 0
  genRange64 := fun _ _ => 0

theorem srcZero_ok : SrcOk srcZero := fun _ _ hb => ⟨hb, hb⟩

/-! ### Helper lemmas about `posOf` and `List.set` -/

theorem posOf_eq_none_iff {t : Nat} {l : List Nat} : posOf t l = none ↔ t ∉ l := by
  induction l with
  | nil => simp [posOf]
  | cons x xs ih =>
    by_cases hx : x = t
    · simp [posOf, hx]
    · simp only [posOf, if_neg hx, Option.map_eq_none', ih, List.mem_cons]
      constructor
      · rintro h (rfl | hm)
        · exact hx rfl
        · exact h hm
      · exact fun h hm => h (Or.inr hm)

theorem posOf_mem {t : Nat} {l : List Nat} {pos : Nat} (h : posOf t l = some pos) :
    t ∈ l := by
  by_contra hc
  rw [posOf_eq_none_iff.mpr hc] at h
  exact Option.noConfusion h

theorem posOf_lt_length {t : Nat} : ∀ {l : List Nat} {pos : Nat},
    posOf t l = some pos → pos < l.length := by
  intro l
  induction l with
  | nil => intro pos h; simp [posOf] at h
  | cons x xs ih =>
    intro pos h
    by_cases hx : x = t
    · simp only [posOf, if_pos hx, Option.some.injEq] at h
      simp [← h]
    · simp only [posOf, if_neg hx, Option.map_eq_some'] at h
      obtain ⟨q, hq, rfl⟩ := h
      have := ih hq
      simp only [List.length_cons]
      omega

theorem set_posOf_eq_self {t : Nat} : ∀ {l : List Nat} {pos : Nat},
    posOf t l = some pos → l.set pos t = l := by
  intro l
  induction l with
  | nil => intro pos h; simp [posOf] at h
  | cons x xs ih =>
    intro pos h
    by_cases hx : x = t
    · simp only [posOf, if_pos hx, Option.some.injEq] at h
      subst hx
      rw [← h]
      simp [List.set]
    · simp only [posOf, if_neg hx, Option.map_eq_some'] at h
      obtain ⟨q, hq, rfl⟩ := h
      simp [List.set, ih hq]

theorem posOf_set_self {a : Nat} : ∀ {l : List Nat} {pos : Nat},
    a ∉ l → pos < l.length → posOf a (l.set pos a) = some pos := by
  intro l
  induction l with
  | nil => intro pos _ h; simp at h
  | cons x xs ih =>
    intro pos ha hlen
    cases pos with
    | zero => simp [List.set, posOf]
    | succ q =>
      have hx : ¬(x = a) := fun h => ha (h ▸ List.mem_cons_self x xs)
      simp only [List.set, posOf, if_neg hx]
      rw [ih (fun h => ha (List.mem_cons_of_mem _ h)) (by simpa using hlen)]
      rfl

theorem not_mem_set_of_posOf {t j : Nat} : ∀ {l : List Nat} {pos : Nat},
    posOf t l = some pos → l.Nodup → t ≠ j → t ∉ l.set pos j := by
  intro l
  induction l with
  | nil => intro pos h; simp [posOf] at h
  | cons x xs ih =>
    intro pos h hnd hj
    by_cases hx : x = t
    · simp only [posOf, if_pos hx, Option.some.injEq] at h
      subst hx
      rw [← h]
      simp only [List.set]
      intro hm
      rcases List.mem_cons.mp hm with h1 | h2
      · exact hj h1
      · exact (List.nodup_cons.mp hnd).1 h2
    · simp only [posOf, if_neg hx, Option.map_eq_some'] at h
      obtain ⟨q, hq, rfl⟩ := h
      simp only [List.set]
      intro hm
      rcases List.mem_cons.mp hm with h1 | h2
      · exact hx h1.symm
      · exact ih hq (List.nodup_cons.mp hnd).2 hj h2

theorem mem_set_of_posOf {j t : Nat} : ∀ {l : List Nat} {q x : Nat},
    posOf j l = some q → l.Nodup → x ∈ l.set q t → x = t ∨ (x ∈ l ∧ x ≠ j) := by
  intro l
  induction l with
  | nil => intro q x h; simp [posOf] at h
  | cons y ys ih =>
    intro q x h hnd hm
    by_cases hy : y = j
    · simp only [posOf, if_pos hy, Option.some.injEq] at h
      subst hy
      rw [← h] at hm
      simp only [List.set] at hm
      rcases List.mem_cons.mp hm with h1 | h2
      · exact Or.inl h1
      · refine Or.inr ⟨List.mem_cons_of_mem _ h2, fun hxy => ?_⟩
        exact (List.nodup_cons.mp hnd).1 (hxy ▸ h2)
    · simp only [posOf, if_neg hy, Option.map_eq_some'] at h
      obtain ⟨q', hq', rfl⟩ := h
      simp only [List.set] at hm
      rcases List.mem_cons.mp hm with h1 | h2
      · exact Or.inr ⟨h1 ▸ List.mem_cons_self y ys, h1 ▸ hy⟩
      · rcases ih hq' (List.nodup_cons.mp hnd).2 h2 with h3 | ⟨h3, h4⟩
        · exact Or.inl h3
        · exact Or.inr ⟨List.mem_cons_of_mem _ h3, h4⟩

theorem nodup_set_of_not_mem {a : Nat} : ∀ {l : List Nat} {n : Nat},
    l.Nodup → a ∉ l → (l.set n a).Nodup := by
  intro l
  induction l with
  | nil => intro n _ _; simp
  | cons x xs ih =>
    intro n hnd ha
    rcases List.nodup_cons.mp hnd with ⟨hx, hxs⟩
    cases n with
    | zero =>
      simp only [List.set]
      exact List.nodup_cons.mpr ⟨fun h => ha (List.mem_cons_of_mem _ h), hxs⟩
    | succ m =>
      simp only [List.set]
      refine List.nodup_cons.mpr ⟨?_, ih hxs (fun h => ha (List.mem_cons_of_mem _ h))⟩
      intro hm
      rcases List.mem_or_eq_of_mem_set hm with h1 | h2
      · exact hx h1
      · subst h2
        exact ha (List.mem_cons_self x xs)

theorem nodup_concat_iff {l : List Nat} {a : Nat} :
    (l ++ [a]).Nodup ↔ l.Nodup ∧ a ∉ l := by
  rw [List.nodup_append_comm]
  simp only [List.singleton_append, List.nodup_cons]
  exact ⟨fun h => ⟨h.2, h.1⟩, fun h => ⟨h.2, h.1⟩⟩

/-! ### One step of Floyd's loop: invariant preservation and invertibility -/

theorem floydStep_spec {prev : List Nat} {j t : Nat} (hnd : prev.Nodup)
    (hlt : ∀ x ∈ prev, x < j) (ht : t ≤ j) :
    (floydStep prev j t).Nodup ∧ (floydStep prev j t).length = prev.length + 1 ∧
      (∀ x ∈ floydStep prev j t, x < j + 1) := by
  unfold floydStep
  cases hp : posOf t prev with
  | none =>
    have htm : t ∉ prev := posOf_eq_none_iff.mp hp
    refine ⟨nodup_concat_iff.mpr ⟨hnd, htm⟩, by simp, ?_⟩
    intro x hx
    rcases List.mem_append.mp hx with h | h
    · exact Nat.lt_succ_of_lt (hlt x h)
    · simp only [List.mem_singleton] at h
      omega
  | some pos =>
    have hposlen := posOf_lt_length hp
    have htj : t < j := hlt t (posOf_mem hp)
    have hjm : j ∉ prev := fun h => Nat.lt_irrefl j (hlt j h)
    have hnd' : (prev.set pos j).Nodup := nodup_set_of_not_mem hnd hjm
    have htm' : t ∉ prev.set pos j := not_mem_set_of_posOf hp hnd (Nat.ne_of_lt htj)
    refine ⟨nodup_concat_iff.mpr ⟨hnd', htm'⟩, by simp, ?_⟩
    intro x hx
    rcases List.mem_append.mp hx with h | h
    · rcases List.mem_or_eq_of_mem_set h with h1 | h1
      · exact Nat.lt_succ_of_lt (hlt x h1)
      · omega
    · simp only [List.mem_singleton] at h
      omega

theorem floydStepInv_floydStep {prev : List Nat} {j t : Nat}
    (hlt : ∀ x ∈ prev, x < j) :
    floydStepInv j (floydStep prev j t) = (prev, t) := by
  have hjm : j ∉ prev := fun h => Nat.lt_irrefl j (hlt j h)
  cases hp : posOf t prev with
  | none =>
    have hs : floydStep prev j t = prev ++ [t] := by
      unfold floydStep
      rw [hp]
    rw [hs]
    simp only [floydStepInv, List.dropLast_concat, List.getLastD_concat,
      posOf_eq_none_iff.mpr hjm]
  | some pos =>
    have hposlen := posOf_lt_length hp
    have hs : floydStep prev j t = prev.set pos j ++ [t] := by
      unfold floydStep
      rw [hp]
    rw [hs]
    simp only [floydStepInv, List.dropLast_concat, List.getLastD_concat,
      posOf_set_self hjm (by simpa using hposlen)]
    rw [List.set_set, set_posOf_eq_self hp]

theorem floydStep_floydStepInv {front : List Nat} {t j : Nat}
    (hnd : (front ++ [t]).Nodup) (hlt : ∀ x ∈ front ++ [t], x < j + 1) :
    (floydStepInv j (front ++ [t])).1.Nodup ∧
      (∀ x ∈ (floydStepInv j (front ++ [t])).1, x < j) ∧
      (floydStepInv j (front ++ [t])).2 ≤ j ∧
      (floydStepInv j (front ++ [t])).1.length = front.length ∧
      floydStep (floydStepInv j (front ++ [t])).1 j (floydStepInv j (front ++ [t])).2 =
        front ++ [t] := by
  obtain ⟨hfnd, htf⟩ := nodup_concat_iff.mp hnd
  have htlt : t < j + 1 := hlt t (List.mem_append.mpr (Or.inr (List.mem_singleton_self t)))
  cases hq : posOf j front with
  | none =>
    have hjf : j ∉ front := posOf_eq_none_iff.mp hq
    have heq : floydStepInv j (front ++ [t]) = (front, t) := by
      simp only [floydStepInv, List.dropLast_concat, List.getLastD_concat, hq]
    rw [heq]
    refine ⟨hfnd, ?_, by omega, rfl, ?_⟩
    · intro x hx
      have hx1 := hlt x (List.mem_append.mpr (Or.inl hx))
      have : x ≠ j := fun h => hjf (h ▸ hx)
      omega
    · show floydStep front j t = front ++ [t]
      unfold floydStep
      rw [posOf_eq_none_iff.mpr htf]
  | some q =>
    have hqlen := posOf_lt_length hq
    have hjf : j ∈ front := posOf_mem hq
    have htj : t ≠ j := fun h => htf (h ▸ hjf)
    have htlt' : t < j := by omega
    have heq : floydStepInv j (front ++ [t]) = (front.set q t, t) := by
      simp only [floydStepInv, List.dropLast_concat, List.getLastD_concat, hq]
    rw [heq]
    refine ⟨nodup_set_of_not_mem hfnd htf, ?_, by omega, by simp, ?_⟩
    · intro x hx
      rcases mem_set_of_posOf hq hfnd hx with h1 | ⟨h1, h2⟩
      · omega
      · have := hlt x (List.mem_append.mpr (Or.inl h1))
        omega
    · show floydStep (front.set q t) j t = front ++ [t]
      unfold floydStep
      simp only [posOf_set_self htf hqlen]
      rw [List.set_set, set_posOf_eq_self hq]

/-! ### Floyd's fold over a block of consecutive candidates -/

theorem floydFold_invariant : ∀ (k j : Nat) (ts start : List Nat),
    List.Forall₂ (fun t c => t ≤ c) ts (List.range' j k) →
    start.Nodup → (∀ x ∈ start, x < j) →
    (floydFold (List.range' j k) ts start).Nodup ∧
      (floydFold (List.range' j k) ts start).length = start.length + k ∧
      (∀ x ∈ floydFold (List.range' j k) ts start, x < j + k) := by
  intro k
  induction k with
  | zero =>
    intro j ts start h hnd hlt
    rw [List.range'_zero] at h ⊢
    have hts := List.forall₂_nil_right_iff.mp h
    subst hts
    exact ⟨hnd, rfl, fun x hx => hlt x hx⟩
  | succ m ih =>
    intro j ts start h hnd hlt
    rw [List.range'_succ] at h ⊢
    obtain ⟨t, ts', ht, hts, rfl⟩ := List.forall₂_cons_right_iff.mp h
    obtain ⟨h1, h2, h3⟩ := floydStep_spec hnd hlt ht
    obtain ⟨g1, g2, g3⟩ := ih (j + 1) ts' (floydStep start j t) hts h1 h3
    show (floydFold (List.range' (j + 1) m) ts' (floydStep start j t)).Nodup ∧ _ ∧ _
    refine ⟨g1, ?_, ?_⟩
    · show (floydFold (List.range' (j + 1) m) ts' (floydStep start j t)).length = _
      rw [g2, h2]
      omega
    · intro x hx
      have := g3 x hx
      omega

theorem floydFold_injective : ∀ (k j : Nat) (ts₁ ts₂ start₁ start₂ : List Nat),
    List.Forall₂ (fun t c => t ≤ c) ts₁ (List.range' j k) →
    List.Forall₂ (fun t c => t ≤ c) ts₂ (List.range' j k) →
    start₁.Nodup → (∀ x ∈ start₁, x < j) →
    start₂.Nodup → (∀ x ∈ start₂, x < j) →
    floydFold (List.range' j k) ts₁ start₁ = floydFold (List.range' j k) ts₂ start₂ →
    start₁ = start₂ ∧ ts₁ = ts₂ := by
  intro k
  induction k with
  | zero =>
    intro j ts₁ ts₂ s₁ s₂ h₁ h₂ _ _ _ _ heq
    rw [List.range'_zero] at h₁ h₂ heq
    have e₁ := List.forall₂_nil_right_iff.mp h₁
    have e₂ := List.forall₂_nil_right_iff.mp h₂
    subst e₁
    subst e₂
    exact ⟨heq, rfl⟩
  | succ m ih =>
    intro j ts₁ ts₂ s₁ s₂ h₁ h₂ hnd₁ hlt₁ hnd₂ hlt₂ heq
    rw [List.range'_succ] at h₁ h₂ heq
    obtain ⟨t₁, ts₁', ht₁, hts₁, rfl⟩ := List.forall₂_cons_right_iff.mp h₁
    obtain ⟨t₂, ts₂', ht₂, hts₂, rfl⟩ := List.forall₂_cons_right_iff.mp h₂
    obtain ⟨a1, _, a3⟩ := floydStep_spec hnd₁ hlt₁ ht₁
    obtain ⟨b1, _, b3⟩ := floydStep_spec hnd₂ hlt₂ ht₂
    have heq' : floydFold (List.range' (j + 1) m) ts₁' (floydStep s₁ j t₁) =
        floydFold (List.range' (j + 1) m) ts₂' (floydStep s₂ j t₂) := heq
    obtain ⟨hstep, hts⟩ := ih (j + 1) ts₁' ts₂' _ _ hts₁ hts₂ a1 a3 b1 b3 heq'
    have hinv : (s₁, t₁) = (s₂, t₂) := by
      rw [← @floydStepInv_floydStep s₁ j t₁ hlt₁, ← @floydStepInv_floydStep s₂ j t₂ hlt₂,
        hstep]
    obtain ⟨hs, ht⟩ := Prod.ext_iff.mp hinv
    exact ⟨hs, by rw [show t₁ = t₂ from ht, hts]⟩

theorem floydFold_surjective : ∀ (k j m : Nat) (out : List Nat),
    out.Nodup → out.length = m + k → (∀ x ∈ out, x < j + k) →
    ∃ start ts, start.Nodup ∧ (∀ x ∈ start, x < j) ∧ start.length = m ∧
      List.Forall₂ (fun t c => t ≤ c) ts (List.range' j k) ∧
      floydFold (List.range' j k) ts start = out := by
  intro k
  induction k with
  | zero =>
    intro j m out hnd hlen hlt
    exact ⟨out, [], hnd, by simpa using hlt, by simpa using hlen,
      by simp [List.range'], by simp [List.range', floydFold]⟩
  | succ n ih =>
    intro j m out hnd hlen hlt
    obtain ⟨start', ts', hnd', hlt', hlen', hf', heq'⟩ :=
      ih (j + 1) (m + 1) out hnd (by omega) (by intro x hx; have := hlt x hx; omega)
    rcases List.eq_nil_or_concat start' with rfl | ⟨front, t, rfl⟩
    · simp at hlen'
    · rw [List.concat_eq_append] at hnd' hlt' hlen' heq'
      obtain ⟨p1, p2, p3, p4, p5⟩ := floydStep_floydStepInv hnd' hlt'
      refine ⟨(floydStepInv j (front ++ [t])).1, (floydStepInv j (front ++ [t])).2 :: ts',
        p1, p2, ?_, ?_, ?_⟩
      · rw [p4]
        simpa using hlen'
      · rw [List.range'_succ]
        exact List.Forall₂.cons p3 hf'
      · rw [List.range'_succ]
        show floydFold (List.range' (j + 1) n) ts'
          (floydStep (floydStepInv j (front ++ [t])).1 j (floydStepInv j (front ++ [t])).2) = out
        rw [p5]
        exact heq'

/-! ### Bridging the instrumented loop with the pure fold -/

theorem gen_index_eq_drawVal (rng : Src) (i b : Nat) (hb : b ≠ 0) :
    gen_index rng i b = some (drawVal rng i b, ⟨widthOf b, b⟩) := by
  unfold gen_index drawVal widthOf
  rw [if_neg hb]
  by_cases h32 : b ≤ u32Max
  · rw [if_pos h32, if_pos h32, if_pos h32]
  · rw [if_neg h32, if_neg h32, if_neg h32]

theorem drawsOf_length (rng : Src) : ∀ (js : List Nat) (i : Nat),
    (drawsOf rng js i).length = js.length := by
  intro js
  induction js with
  | nil => intro i; rfl
  | cons j js ih =>
    intro i
    show (drawsOf rng js (i + 1)).length + 1 = js.length + 1
    rw [ih]

theorem drawsOf_forall₂ {rng : Src} (hs : SrcOk rng) : ∀ (js : List Nat) (i : Nat),
    List.Forall₂ (fun t c => t ≤ c) (drawsOf rng js i) js := by
  intro js
  induction js with
  | nil => intro i; exact List.Forall₂.nil
  | cons j js ih =>
    intro i
    refine List.Forall₂.cons ?_ (ih (i + 1))
    have hb : 0 < j + 1 := Nat.succ_pos j
    unfold drawVal
    by_cases h32 : j + 1 ≤ u32Max
    · rw [if_pos h32]
      have := (hs i (j + 1) hb).1
      omega
    · rw [if_neg h32]
      have := (hs i (j + 1) hb).2
      omega

theorem drawsOf_append (rng : Src) : ∀ (js₁ js₂ : List Nat) (i : Nat),
    drawsOf rng (js₁ ++ js₂) i = drawsOf rng js₁ i ++ drawsOf rng js₂ (i + js₁.length) := by
  intro js₁
  induction js₁ with
  | nil => intro js₂ i; rfl
  | cons j js ih =>
    intro js₂ i
    show drawVal rng i (j + 1) :: drawsOf rng (js ++ js₂) (i + 1) = _
    rw [ih js₂ (i + 1)]
    show _ = drawVal rng i (j + 1) :: (drawsOf rng js (i + 1) ++ drawsOf rng js₂ (i + (js.length + 1)))
    rw [show i + 1 + js.length = i + (js.length + 1) from by omega]

theorem floydFold_append : ∀ (js₁ ts₁ js₂ ts₂ start : List Nat),
    js₁.length = ts₁.length →
    floydFold (js₁ ++ js₂) (ts₁ ++ ts₂) start = floydFold js₂ ts₂ (floydFold js₁ ts₁ start) := by
  intro js₁
  induction js₁ with
  | nil =>
    intro ts₁ js₂ ts₂ start hlen
    have : ts₁ = [] := List.length_eq_zero.mp hlen.symm
    subst this
    rfl
  | cons j js ih =>
    intro ts₁ js₂ ts₂ start hlen
    cases ts₁ with
    | nil => simp at hlen
    | cons t ts =>
      show floydFold (js ++ js₂) (ts ++ ts₂) (floydStep start j t) = _
      rw [ih ts js₂ ts₂ (floydStep start j t) (by simpa using hlen)]
      rfl

theorem floydGo_spec (rng : Src) : ∀ (js : List Nat) (i : Nat) (indices : List Nat),
    floydGo rng js i indices =
      (some (floydFold js (drawsOf rng js i) indices),
        js.map fun j => ⟨widthOf (j + 1), j + 1⟩) := by
  intro js
  induction js with
  | nil => intro i indices; rfl
  | cons j js ih =>
    intro i indices
    show (match gen_index rng i (j + 1) with
      | none => ((none : Option (List Nat)), ([] : List Req))
      | some (t, r) =>
        ((floydGo rng js (i + 1) (floydStep indices j t)).1,
          r :: (floydGo rng js (i + 1) (floydStep indices j t)).2)) = _
    simp only [gen_index_eq_drawVal rng i (j + 1) (Nat.succ_ne_zero j)]
    rw [ih (i + 1)]
    rfl

theorem sampleT_spec (rng : Src) (N len : Nat) (h : N ≤ len) :
    sampleT rng N len =
      (some (floydOut len N (drawsOf rng (List.range' (len - N) N) 0)),
        (List.range' (len - N) N).map fun j => ⟨widthOf (j + 1), j + 1⟩) := by
  unfold sampleT floydOut
  rw [if_neg (by omega)]
  exact floydGo_spec rng _ 0 []

theorem floydStateAt_succ (rng : Src) (len N i : Nat) :
    floydStateAt rng len N (i + 1) =
      floydStep (floydStateAt rng len N i) (len - N + i) (drawVal rng i (len - N + i + 1)) := by
  unfold floydStateAt
  rw [List.range'_concat]
  simp only [Nat.one_mul]
  rw [drawsOf_append, floydFold_append _ _ _ _ _ (by rw [drawsOf_length, List.length_range'])]
  rw [List.length_range', Nat.zero_add]
  rfl

/-! ### The admissible draw tuples -/

theorem mem_drawTuples : ∀ (k j : Nat) (ts : List Nat),
    ts ∈ drawTuples j k ↔ List.Forall₂ (fun t c => t ≤ c) ts (List.range' j k) := by
  intro k
  induction k with
  | zero =>
    intro j ts
    rw [List.range'_zero]
    show ts ∈ ({[]} : Finset (List Nat)) ↔ _
    rw [Finset.mem_singleton]
    exact ⟨fun h => by rw [h]; exact List.Forall₂.nil, fun h => List.forall₂_nil_right_iff.mp h⟩
  | succ n ih =>
    intro j ts
    show ts ∈ (Finset.range (j + 1)).biUnion _ ↔ _
    rw [List.range'_succ, Finset.mem_biUnion]
    constructor
    · rintro ⟨t, ht, hts⟩
      rw [Finset.mem_image] at hts
      obtain ⟨ts', hts', rfl⟩ := hts
      rw [Finset.mem_range] at ht
      exact List.Forall₂.cons (by omega) ((ih (j + 1) ts').mp hts')
    · intro h
      obtain ⟨t, ts', ht, hts, rfl⟩ := List.forall₂_cons_right_iff.mp h
      refine ⟨t, Finset.mem_range.mpr (by omega), ?_⟩
      rw [Finset.mem_image]
      exact ⟨ts', (ih (j + 1) ts').mpr hts, rfl⟩

theorem drawTuples_card : ∀ (k j : Nat),
    (drawTuples j k).card * j.factorial = (j + k).factorial := by
  intro k
  induction k with
  | zero =>
    intro j
    show ({[]} : Finset (List Nat)).card * j.factorial = j.factorial
    rw [Finset.card_singleton, Nat.one_mul]
  | succ n ih =>
    intro j
    have hdisj : ∀ x ∈ Finset.range (j + 1), ∀ y ∈ Finset.range (j + 1), x ≠ y →
        Disjoint ((drawTuples (j + 1) n).image fun ts => x :: ts)
          ((drawTuples (j + 1) n).image fun ts => y :: ts) := by
      intro x _ y _ hxy
      rw [Finset.disjoint_left]
      intro a ha hb
      rw [Finset.mem_image] at ha hb
      obtain ⟨ts₁, _, rfl⟩ := ha
      obtain ⟨ts₂, _, heads⟩ := hb
      exact hxy (List.cons.injEq .. ▸ heads).1.symm
    show ((Finset.range (j + 1)).biUnion _).card * j.factorial = _
    rw [Finset.card_biUnion hdisj]
    rw [Finset.sum_congr rfl fun t _ =>
      Finset.card_image_of_injective (drawTuples (j + 1) n) fun a b hab =>
        (List.cons.injEq .. ▸ hab).2]
    rw [Finset.sum_const, Finset.card_range, smul_eq_mul]
    have h2 : (j + 1) * (drawTuples (j + 1) n).card * j.factorial =
        (drawTuples (j + 1) n).card * ((j + 1) * j.factorial) := by ring
    rw [h2, ← Nat.factorial_succ, ih (j + 1)]
    congr 1
    omega

theorem drawTuples_card_choose {len N : Nat} (h : N ≤ len) :
    (drawTuples (len - N) N).card = Nat.choose len N * N.factorial := by
  have h1 := drawTuples_card N (len - N)
  rw [show len - N + N = len from by omega] at h1
  have h2 := Nat.choose_mul_factorial_mul_factorial h
  have h3 : (drawTuples (len - N) N).card * (len - N).factorial =
      Nat.choose len N * N.factorial * (len - N).factorial := by
    rw [h1, ← h2]
  exact Nat.eq_of_mul_eq_mul_right (Nat.factorial_pos _) h3

/-! ### Shared consequences of the fold invariant -/

theorem sample_array_inv_core (rng : Src) (len N : Nat) (hs : SrcOk rng) (h : N ≤ len) :
    sample_array rng N len =
        some (floydOut len N (drawsOf rng (List.range' (len - N) N) 0)) ∧
      (floydOut len N (drawsOf rng (List.range' (len - N) N) 0)).length = N ∧
      (floydOut len N (drawsOf rng (List.range' (len - N) N) 0)).Nodup ∧
      ∀ x ∈ floydOut len N (drawsOf rng (List.range' (len - N) N) 0), x < len := by
  have hadm := drawsOf_forall₂ hs (List.range' (len - N) N) 0
  obtain ⟨g1, g2, g3⟩ := floydFold_invariant N (len - N) _ [] hadm List.nodup_nil
    (fun x hx => absurd hx (List.not_mem_nil x))
  refine ⟨?_, ?_, g1, ?_⟩
  · unfold sample_array
    rw [sampleT_spec rng N len h]
  · unfold floydOut
    rw [g2]
    simp
  · intro x hx
    have := g3 x hx
    omega

theorem map_succ_range' : ∀ (n s : Nat),
    (List.range' s n).map (fun j => j + 1) = List.range' (s + 1) n := by
  intro n
  induction n with
  | zero => intro s; rfl
  | succ m ih =>
    intro s
    rw [List.range'_succ, List.range'_succ, List.map_cons, ih (s + 1)]

theorem drawsOf_congr (rng₁ rng₂ : Src) : ∀ (k j i₀ : Nat),
    (∀ i, i < k → drawVal rng₁ (i₀ + i) (j + i + 1) = drawVal rng₂ (i₀ + i) (j + i + 1)) →
    drawsOf rng₁ (List.range' j k) i₀ = drawsOf rng₂ (List.range' j k) i₀ := by
  intro k
  induction k with
  | zero => intro j i₀ _; rfl
  | succ n ih =>
    intro j i₀ hag
    rw [List.range'_succ]
    show drawVal rng₁ i₀ (j + 1) :: drawsOf rng₁ (List.range' (j + 1) n) (i₀ + 1) = _
    have h0 : drawVal rng₁ i₀ (j + 1) = drawVal rng₂ i₀ (j + 1) := hag 0 (Nat.succ_pos n)
    rw [h0, ih (j + 1) (i₀ + 1) fun i hi => ?_]
    · rfl
    · have e1 : i₀ + 1 + i = i₀ + (i + 1) := by omega
      have e2 : j + 1 + i = j + (i + 1) := by omega
      rw [e1, e2]
      exact hag (i + 1) (by omega)

/-! ### The claims -/

/-- C1: for every `len ≥ 0` and every `N` with `0 ≤ N ≤ len`, `sample_array`
returns a present result containing exactly `N` entries, pairwise distinct,
each in `[0, len)`; in particular for `N = 0` it returns a present empty
result for every `len`, including `len = 0`. -/
theorem sample_array_complete_distinct (rng : Src) (len N : Nat)
    (hs : SrcOk rng) (h : N ≤ len) :
    ∃ out, sample_array rng N len = some out ∧ out.length = N ∧ out.Nodup ∧
      (∀ x ∈ out, x < len) ∧ (N = 0 → out = []) := by
  obtain ⟨e, l, nd, bd⟩ := sample_array_inv_core rng len N hs h
  refine ⟨_, e, l, nd, bd, ?_⟩
  intro hN
  subst hN
  rfl

theorem sample_array_complete_distinct_witness :
    ∃ out, sample_array srcZero 3 5 = some out ∧ out.length = 3 ∧ out.Nodup ∧
      (∀ x ∈ out, x < 5) ∧ (3 = 0 → out = []) :=
  sample_array_complete_distinct srcZero 5 3 srcZero_ok (by decide)

/-- C2: `sample_array` returns `none` if and only if `N > len`, and in that
case it consumes zero draws from the source (the request trace is empty). -/
theorem sample_array_none_iff (rng : Src) (N len : Nat) :
    (sample_array rng N len = none ↔ N > len) ∧
      (N > len → sampleReqs rng N len = []) := by
  refine ⟨⟨?_, ?_⟩, ?_⟩
  · intro hn
    by_contra hc
    push_neg at hc
    unfold sample_array at hn
    rw [sampleT_spec rng N len hc] at hn
    exact Option.noConfusion hn
  · intro hgt
    unfold sample_array sampleT
    rw [if_pos hgt]
  · intro hgt
    unfold sampleReqs sampleT
    rw [if_pos hgt]

theorem sample_array_none_iff_witness :
    sample_array srcZero 5 3 = none ∧ sampleReqs srcZero 5 3 = [] :=
  ⟨(sample_array_none_iff srcZero 5 3).1.mpr (by decide),
    (sample_array_none_iff srcZero 5 3).2 (by decide)⟩

/-- C3: for `N ≤ len` the sampler processes candidates `len-N, …, len-1` in
ascending order in lock-step with output slots `0..N`, making exactly one
draw per candidate with bound `j + 1` (so `N` draws with ascending bounds
`len-N+1, …, len`); at each step, a collision of the draw `t` with the filled
slot at `pos` overwrites that slot with `j` before `t` is stored in the
current slot. -/
theorem sample_array_iteration (rng : Src) (N len : Nat) (h : N ≤ len) :
    (sampleReqs rng N len).map Req.bound = List.range' (len - N + 1) N ∧
      (sampleReqs rng N len).length = N ∧
      sample_array rng N len = some (floydStateAt rng len N N) ∧
      ∀ i, i < N →
        floydStateAt rng len N (i + 1) =
          match posOf (drawVal rng i (len - N + i + 1)) (floydStateAt rng len N i) with
          | some pos =>
            (floydStateAt rng len N i).set pos (len - N + i) ++
              [drawVal rng i (len - N + i + 1)]
          | none => floydStateAt rng len N i ++ [drawVal rng i (len - N + i + 1)] := by
  refine ⟨?_, ?_, ?_, ?_⟩
  · unfold sampleReqs
    rw [sampleT_spec rng N len h, List.map_map]
    show (List.range' (len - N) N).map (fun j => j + 1) = _
    exact map_succ_range' N (len - N)
  · unfold sampleReqs
    rw [sampleT_spec rng N len h, List.length_map, List.length_range']
  · unfold sample_array
    rw [sampleT_spec rng N len h]
    rfl
  · intro i _
    rw [floydStateAt_succ]
    rfl

theorem sample_array_iteration_witness :
    (sampleReqs srcScenario 3 5).map Req.bound = List.range' (5 - 3 + 1) 3 :=
  (sample_array_iteration srcScenario 3 5 (by decide)).1

/-- C4: for fixed `len` and `N ≤ len`, the function computed by
`sample_array` from the draw sequence to the output is a bijection from the
admissible draw sequences (the `i`-th draw ranges over `[0, len-N+i]`) onto
the ordered sequences of `N` pairwise-distinct indices below `len`; there
are exactly `C(len, N) · N!` admissible draw sequences, so every ordered
distinct sequence is produced by exactly one draw sequence. -/
theorem sample_array_bijection (len N : Nat) (h : N ≤ len) :
    Set.BijOn (floydOut len N) (drawTuples (len - N) N : Finset (List Nat))
        {out : List Nat | out.length = N ∧ out.Nodup ∧ ∀ x ∈ out, x < len} ∧
      (drawTuples (len - N) N).card = Nat.choose len N * N.factorial ∧
      (∀ ts, ts ∈ drawTuples (len - N) N ↔
        List.Forall₂ (fun t c => t ≤ c) ts (List.range' (len - N) N)) ∧
      ∀ rng : Src, sample_array rng N len =
        some (floydOut len N (drawsOf rng (List.range' (len - N) N) 0)) := by
  refine ⟨Set.BijOn.mk ?_ ?_ ?_, drawTuples_card_choose h,
    fun ts => mem_drawTuples N (len - N) ts, ?_⟩
  · intro ts hts
    rw [Finset.mem_coe, mem_drawTuples] at hts
    obtain ⟨g1, g2, g3⟩ := floydFold_invariant N (len - N) ts [] hts List.nodup_nil
      (fun x hx => absurd hx (List.not_mem_nil x))
    refine ⟨?_, g1, fun x hx => ?_⟩
    · show (floydOut len N ts).length = N
      unfold floydOut
      rw [g2]
      simp
    · have := g3 x hx
      omega
  · intro ts₁ h₁ ts₂ h₂ heq
    rw [Finset.mem_coe, mem_drawTuples] at h₁ h₂
    exact (floydFold_injective N (len - N) ts₁ ts₂ [] [] h₁ h₂ List.nodup_nil
      (fun x hx => absurd hx (List.not_mem_nil x)) List.nodup_nil
      (fun x hx => absurd hx (List.not_mem_nil x)) heq).2
  · intro out hout
    obtain ⟨hl, hnd, hbd⟩ := hout
    obtain ⟨start, ts, _, _, hlen0, hf, heq⟩ := floydFold_surjective N (len - N) 0 out hnd
      (by omega) (by intro x hx; have := hbd x hx; omega)
    have : start = [] := List.length_eq_zero.mp hlen0
    subst this
    exact ⟨ts, Finset.mem_coe.mpr ((mem_drawTuples N (len - N) ts).mpr hf), heq⟩
  · intro rng
    unfold sample_array
    rw [sampleT_spec rng N len h]

theorem sample_array_bijection_witness :
    (drawTuples (4 - 2) 2).card = Nat.choose 4 2 * Nat.factorial 2 :=
  (sample_array_bijection 4 2 (by decide)).2.1

/-- C5: for every bound `b` with `1 ≤ b ≤ 2^32 - 1`, `gen_index` performs
the draw via the source's 32-bit range-sampling operation over `[0, b)` and
returns its value; only for `b > 2^32 - 1` does it use the 64-bit one; in
either case the returned value is `< b` (given the source contract), and
the selected width is a function of the bound's value alone (`widthOf`). -/
theorem gen_index_width_selection (rng : Src) (i b : Nat) :
    (1 ≤ b → b ≤ u32Max → gen_index rng i b = some (rng.genRange32 i b, ⟨Width.w32, b⟩)) ∧
      (b > u32Max → gen_index rng i b = some (rng.genRange64 i b, ⟨Width.w64, b⟩)) ∧
      (SrcOk rng → 1 ≤ b → ∀ v r, gen_index rng i b = some (v, r) →
        v < b ∧ r.width = widthOf b ∧ r.bound = b) := by
  refine ⟨?_, ?_, ?_⟩
  · intro h1 h2
    unfold gen_index
    rw [if_neg (by omega), if_pos h2]
  · intro hgt
    have hb0 : b ≠ 0 := by
      have : 0 < u32Max := by unfold u32Max; omega
      omega
    unfold gen_index
    rw [if_neg hb0, if_neg (by omega)]
  · intro hs h1 v r hgi
    rw [gen_index_eq_drawVal rng i b (by omega)] at hgi
    have hv : drawVal rng i b = v := congrArg Prod.fst (Option.some.inj hgi)
    have hr : (⟨widthOf b, b⟩ : Req) = r := congrArg Prod.snd (Option.some.inj hgi)
    refine ⟨?_, by rw [← hr], by rw [← hr]⟩
    rw [← hv]
    unfold drawVal
    by_cases h32 : b ≤ u32Max
    · rw [if_pos h32]
      exact (hs i b (by omega)).1
    · rw [if_neg h32]
      exact (hs i b (by omega)).2

theorem gen_index_width_selection_witness :
    gen_index srcZero 0 7 = some (srcZero.genRange32 0 7, ⟨Width.w32, 7⟩) :=
  (gen_index_width_selection srcZero 0 7).1 (by decide) (by decide)

/-- C6: for `N = len` the entries of the returned array, viewed as a set,
are exactly `{0, 1, …, len - 1}` — a full permutation of the range. -/
theorem sample_array_full_permutation (rng : Src) (len : Nat) (hs : SrcOk rng) :
    ∃ out, sample_array rng len len = some out ∧ out.toFinset = Finset.range len := by
  obtain ⟨e, l, nd, bd⟩ := sample_array_inv_core rng len len hs (Nat.le_refl len)
  refine ⟨_, e, ?_⟩
  have hsub : (floydOut len len (drawsOf rng (List.range' (len - len) len) 0)).toFinset ⊆
      Finset.range len := by
    intro x hx
    rw [List.mem_toFinset] at hx
    exact Finset.mem_range.mpr (bd x hx)
  refine Finset.eq_of_subset_of_card_le hsub ?_
  rw [Finset.card_range, List.toFinset_card_of_nodup nd, l]

theorem sample_array_full_permutation_witness :
    ∃ out, sample_array srcZero 3 3 = some out ∧ out.toFinset = Finset.range 3 :=
  sample_array_full_permutation srcZero 3 srcZero_ok

/-- C7: determinism modulo the source: any two runs with the same `(N, len)`
request the same sequence of bounds, and if their sources return identical
draw values at the requested bounds, the runs return identical results. -/
theorem sample_array_deterministic (rng₁ rng₂ : Src) (N len : Nat)
    (hag : ∀ i, i < N →
      drawVal rng₁ i (len - N + i + 1) = drawVal rng₂ i (len - N + i + 1)) :
    sampleReqs rng₁ N len = sampleReqs rng₂ N len ∧
      sample_array rng₁ N len = sample_array rng₂ N len := by
  by_cases h : N ≤ len
  · have h₁ := sampleT_spec rng₁ N len h
    have h₂ := sampleT_spec rng₂ N len h
    have hdraws : drawsOf rng₁ (List.range' (len - N) N) 0 =
        drawsOf rng₂ (List.range' (len - N) N) 0 := by
      apply drawsOf_congr rng₁ rng₂ N (len - N) 0
      intro i hi
      have e : (0 : Nat) + i = i := Nat.zero_add i
      rw [e]
      exact hag i hi
    constructor
    · unfold sampleReqs
      rw [h₁, h₂]
    · unfold sample_array
      rw [h₁, h₂, hdraws]
  · push_neg at h
    constructor
    · unfold sampleReqs sampleT
      rw [if_pos h, if_pos h]
    · unfold sample_array sampleT
      rw [if_pos h, if_pos h]

theorem sample_array_deterministic_witness :
    sampleReqs srcZero 2 4 = sampleReqs srcZero 2 4 ∧
      sample_array srcZero 2 4 = sample_array srcZero 2 4 :=
  sample_array_deterministic srcZero srcZero 2 4 (fun _ _ => rfl)

/-- C8: the hand-traced scenario: with `len = 5`, `N = 3` and draws
`1, 1, 2` against bounds `3, 4, 5`, slot 0 receives 1; the collision at slot
0 overwrites it with 3 while slot 1 receives 1; slot 2 receives 2 without
collision — so `sample_array` returns exactly `[3, 1, 2]`. -/
theorem sample_array_concrete_scenario :
    (sampleReqs srcScenario 3 5).map Req.bound = [3, 4, 5] ∧
      floydStateAt srcScenario 5 3 1 = [1] ∧
      floydStateAt srcScenario 5 3 2 = [3, 1] ∧
      floydStateAt srcScenario 5 3 3 = [3, 1, 2] ∧
      sample_array srcScenario 3 5 = some [3, 1, 2] := by
  decide

/-- C9: loop invariant: after processing the `i`-th candidate
`j = len - N + i`, the filled prefix holds `i + 1` pairwise-distinct values,
each in `[0, j]`; moreover before the step at most one filled slot equals
the drawn value (the prefix is duplicate-free), and every already-stored
value is strictly below `j`, so overwriting the matched slot with `j` cannot
create a duplicate. -/
theorem floyd_loop_invariant (rng : Src) (len N : Nat) (hs : SrcOk rng)
    (h : N ≤ len) :
    ∀ i, i < N →
      (floydStateAt rng len N (i + 1)).Nodup ∧
        (floydStateAt rng len N (i + 1)).length = i + 1 ∧
        (∀ x ∈ floydStateAt rng len N (i + 1), x ≤ len - N + i) ∧
        List.count (drawVal rng i (len - N + i + 1)) (floydStateAt rng len N i) ≤ 1 ∧
        ∀ x ∈ floydStateAt rng len N i, x < len - N + i := by
  have base : ∀ m, (floydStateAt rng len N m).Nodup ∧
      (floydStateAt rng len N m).length = m ∧
      ∀ x ∈ floydStateAt rng len N m, x < len - N + m := by
    intro m
    have hadm := drawsOf_forall₂ hs (List.range' (len - N) m) 0
    obtain ⟨g1, g2, g3⟩ := floydFold_invariant m (len - N) _ [] hadm List.nodup_nil
      (fun x hx => absurd hx (List.not_mem_nil x))
    refine ⟨g1, ?_, g3⟩
    show (floydFold (List.range' (len - N) m)
      (drawsOf rng (List.range' (len - N) m) 0) []).length = m
    rw [g2]
    simp
  intro i _
  obtain ⟨s1, s2, s3⟩ := base (i + 1)
  obtain ⟨p1, _, p3⟩ := base i
  refine ⟨s1, s2, fun x hx => ?_, ?_, p3⟩
  · have := s3 x hx
    omega
  · exact List.nodup_iff_count_le_one.mp p1 _

theorem floyd_loop_invariant_witness :
    (floydStateAt srcZero 5 3 2).Nodup ∧
      (floydStateAt srcZero 5 3 2).length = 2 ∧
      (∀ x ∈ floydStateAt srcZero 5 3 2, x ≤ 5 - 3 + 1) ∧
      List.count (drawVal srcZero 1 (5 - 3 + 1 + 1)) (floydStateAt srcZero 5 3 1) ≤ 1 ∧
      ∀ x ∈ floydStateAt srcZero 5 3 1, x < 5 - 3 + 1 :=
  floyd_loop_invariant srcZero 5 3 srcZero_ok (by decide) 1 (by decide)

/-- C10: under `N ≤ len`, every call the sampler makes to the generator
passes a bound `j + 1` with `1 ≤ j + 1 ≤ len` — the generator is never
invoked with bound 0 — and whenever `len ≤ 2^32 - 1` every call selects the
32-bit branch, never the one that is fatal on 32-bit hosts. -/
theorem gen_index_calls_safe (rng : Src) (N len : Nat) (h : N ≤ len) :
    ∀ r ∈ sampleReqs rng N len, 1 ≤ r.bound ∧ r.bound ≤ len ∧
      (len ≤ u32Max → r.width = Width.w32) := by
  intro r hr
  unfold sampleReqs at hr
  rw [sampleT_spec rng N len h] at hr
  simp only [List.mem_map] at hr
  obtain ⟨j, hj, rfl⟩ := hr
  rw [List.mem_range'_1] at hj
  refine ⟨?_, ?_, ?_⟩
  · show 1 ≤ j + 1
    omega
  · show j + 1 ≤ len
    omega
  · intro hlen
    show widthOf (j + 1) = Width.w32
    unfold widthOf
    rw [if_pos (by omega)]

theorem gen_index_calls_safe_witness :
    1 ≤ (Req.mk Width.w32 4).bound ∧ (Req.mk Width.w32 4).bound ≤ 5 ∧
      (5 ≤ u32Max → (Req.mk Width.w32 4).width = Width.w32) :=
  gen_index_calls_safe srcZero 2 5 (by decide) (Req.mk Width.w32 4) (by decide)

end Rand
